import Mathlib

/-!
Verification development for the text alignment and discrepancy engine of the
AI-Validator repository (server/services/simple_text_comparison.py).

The Python code is shallowly embedded: text is modelled as `List Char`,
floating point similarity scores as rationals (every score produced by the
code is a ratio of small integers, so this is exact), and the difflib
SequenceMatcher ratio is modelled faithfully, including the autojunk
treatment of popular elements and the best-match extension steps.
-/

namespace STC

/-- Text is modelled as a list of characters. -/
abbrev Str := List Char

/-- Whitespace class of the Python regular expression \s (and of str.split
with no argument) for the character ranges the engine sees: ASCII whitespace
plus the common Unicode space characters. -/
def pyIsSpace (c : Char) : Bool :=
  c = ' ' || c = '\t' || c = '\n' || c = '\r' || c = '\x0b' || c = '\x0c' ||
  c = '\x1c' || c = '\x1d' || c = '\x1e' || c = '\x1f' || c = '\x85' || c = '\xa0' ||
  c = ' ' || c = ' ' || c = ' ' || c = ' ' || c = ' ' ||
  c = ' ' || c = ' ' || c = ' ' || c = ' ' || c = ' ' ||
  c = ' ' || c = ' ' || c = ' ' || c = ' ' || c = ' ' ||
  c = ' ' || c = '　'

/-- Model of re.sub applied with pattern \s+ and replacement a single space:
every maximal run of whitespace characters is replaced by one space.  A
whitespace character is dropped when the next character is whitespace too, so
exactly the last character of each run becomes the single space. -/
def collapseWs : Str → Str
  | [] => []
  | [c] => if pyIsSpace c then [' '] else [c]
  | c :: d :: cs =>
    if pyIsSpace c then
      if pyIsSpace d then collapseWs (d :: cs)
      else ' ' :: collapseWs (d :: cs)
    else c :: collapseWs (d :: cs)

/-- Model of re.sub applied with the punctuation class [,;:!?\x22] and empty
replacement: the six punctuation characters are removed. -/
def removePunct (s : Str) : Str :=
  s.filter (fun c =>
    !(c = ',' || c = ';' || c = ':' || c = '!' || c = '?' || c = '\x22'))

/-- Model of the Python str.strip method: leading and trailing whitespace is
removed. -/
def strip (s : Str) : Str :=
  (s.dropWhile pyIsSpace).rdropWhile pyIsSpace

/-- Embedding of SimpleTextComparison normalizeText (simple_text_comparison.py
lines 89 to 103): empty input maps to empty output; otherwise the text is
lower cased, every whitespace run (newlines included) is collapsed to a single
space, the noise punctuation is removed and the result is stripped. -/
def normalizeText (text : Str) : Str :=
  if text = [] then []
  else strip (removePunct (collapseWs (text.map Char.toLower)))

/-- Model of the Python str.split method with separator a newline character:
the text is cut at every newline; n newlines give n + 1 pieces. -/
def splitOnNl : Str → List Str
  | [] => [[]]
  | c :: cs =>
    match splitOnNl cs, decide (c = '\n') with
    | r, true => [] :: r
    | [], false => [[c]]
    | p :: ps, false => (c :: p) :: ps

/-- Embedding of the line extraction in compare_texts (lines 47 to 48): the
normalized text is split on newlines, each piece stripped, and blank pieces
are dropped. -/
def extractLines (s : Str) : List Str :=
  ((splitOnNl s).map strip).filter (fun line => line ≠ [])

/-- Model of the Python str.split method with no argument: the maximal
whitespace separated words of the text, with no empty words. -/
def pyWords (s : Str) : List Str :=
  (s.splitOnP pyIsSpace).filter (fun w => w ≠ [])

/-!
Model of difflib.SequenceMatcher with isjunk = None, as used by the engine.
The b2j index maps every element of b to its positions, except that when
autojunk applies (len(b) at least 200) the popular elements (count above
len(b) / 100 + 1) are removed.  find_longest_match first scans all runs of
b2j-indexed matches keeping the first strictly longest one, then extends the
winner to the left and to the right over equal elements (the junk extension
loops are identity here because the junk set is empty when isjunk is None).
The total size of the recursively collected matching blocks divided by the
total length gives ratio.
-/

/-- The autojunk popularity test of SequenceMatcher chain_b: an element of b
is popular when b has at least 200 elements and the element occurs more than
len(b) / 100 + 1 times. -/
def autoPopular [DecidableEq α] (b : List α) (x : α) : Bool :=
  decide (200 ≤ b.length) && decide (b.length / 100 + 1 < b.count x)

/-- Length of the run of matching pairs at the heads of the two lists, where
a pair matches when the elements are equal and the b side element is not
junked out of b2j (the pop predicate). -/
def startRunLen [DecidableEq α] (pop : α → Bool) : List α → List α → Nat
  | x :: xs, y :: ys =>
    if x = y ∧ pop y = false then startRunLen pop xs ys + 1 else 0
  | _, _ => 0

/-- All index pairs (i, j) with i below m and j below n, in the scan order of
the find_longest_match main loop. -/
def allPairs (m n : Nat) : List (Nat × Nat) :=
  (List.range m).flatMap (fun i => (List.range n).map (fun j => (i, j)))

/-- One step of the main loop of find_longest_match: a run strictly longer
than the best so far becomes the new best. -/
def bestBlockStep [DecidableEq α] (pop : α → Bool) (a b : List α)
    (best : Nat × Nat × Nat) (p : Nat × Nat) : Nat × Nat × Nat :=
  if best.2.2 < startRunLen pop (a.drop p.1) (b.drop p.2) then
    (p.1, p.2, startRunLen pop (a.drop p.1) (b.drop p.2))
  else best

/-- The main loop of find_longest_match: the first strictly longest matching
run over non junked positions, with default (0, 0, 0). -/
def bestBlock [DecidableEq α] (pop : α → Bool) (a b : List α) : Nat × Nat × Nat :=
  (allPairs a.length b.length).foldl (bestBlockStep pop a b) (0, 0, 0)

/-- The first extension loop of find_longest_match: the best block is widened
to the left while the adjacent elements are equal (the junk guard is vacuous
because the junk set is empty). -/
def extendLeft [DecidableEq α] (a b : List α) : Nat → Nat → Nat → Nat × Nat × Nat
  | i + 1, j + 1, k =>
    match a.get? i, b.get? j with
    | some x, some y => if x = y then extendLeft a b i j (k + 1) else (i + 1, j + 1, k)
    | _, _ => (i + 1, j + 1, k)
  | i, j, k => (i, j, k)

/-- The second extension loop of find_longest_match, fueled: the block size
is grown to the right while the next elements exist and are equal.  Each
iteration moves i + k one step closer to the end of a, so the loop runs at
most a.length - (i + k) times and the fuel below never runs out. -/
def extendRightAux [DecidableEq α] (a b : List α) (i j : Nat) :
    Nat → Nat → Nat
  | 0, k => k
  | fuel + 1, k =>
    if i + k < a.length ∧ j + k < b.length ∧ a.get? (i + k) = b.get? (j + k) then
      extendRightAux a b i j fuel (k + 1)
    else k

/-- The second extension loop of find_longest_match. -/
def extendRight [DecidableEq α] (a b : List α) (i j k : Nat) : Nat :=
  extendRightAux a b i j (a.length - (i + k)) k

/-- Embedding of SequenceMatcher find_longest_match on whole lists: main scan
followed by the two extension loops. -/
def findLongestMatch [DecidableEq α] (pop : α → Bool) (a b : List α) : Nat × Nat × Nat :=
  ((extendLeft a b (bestBlock pop a b).1 (bestBlock pop a b).2.1
      (bestBlock pop a b).2.2).1,
   (extendLeft a b (bestBlock pop a b).1 (bestBlock pop a b).2.1
      (bestBlock pop a b).2.2).2.1,
   extendRight a b
     (extendLeft a b (bestBlock pop a b).1 (bestBlock pop a b).2.1
        (bestBlock pop a b).2.2).1
     (extendLeft a b (bestBlock pop a b).1 (bestBlock pop a b).2.1
        (bestBlock pop a b).2.2).2.1
     (extendLeft a b (bestBlock pop a b).1 (bestBlock pop a b).2.1
        (bestBlock pop a b).2.2).2.2)

/-- The run at (i, j) fits inside a. -/
def startRunLen_le_left [DecidableEq α] (pop : α → Bool) :
    ∀ (a b : List α), startRunLen pop a b ≤ a.length := by
  intro a
  induction a with
  | nil => intro b; simp [startRunLen]
  | cons x xs ih =>
    intro b
    cases b with
    | nil => simp [startRunLen]
    | cons y ys =>
      simp only [startRunLen, List.length_cons]
      split
      · exact Nat.succ_le_succ (ih ys)
      · exact Nat.zero_le _

/-- The run at (i, j) fits inside b. -/
def startRunLen_le_right [DecidableEq α] (pop : α → Bool) :
    ∀ (a b : List α), startRunLen pop a b ≤ b.length := by
  intro a
  induction a with
  | nil => intro b; simp [startRunLen]
  | cons x xs ih =>
    intro b
    cases b with
    | nil => simp [startRunLen]
    | cons y ys =>
      simp only [startRunLen, List.length_cons]
      split
      · exact Nat.succ_le_succ (ih ys)
      · exact Nat.zero_le _

/-- The main loop keeps the block inside both lists. -/
def bestBlock_foldBound [DecidableEq α] (pop : α → Bool) (a b : List α) :
    ∀ (l : List (Nat × Nat)) (acc : Nat × Nat × Nat),
      acc.1 + acc.2.2 ≤ a.length → acc.2.1 + acc.2.2 ≤ b.length →
      (List.foldl (bestBlockStep pop a b) acc l).1
          + (List.foldl (bestBlockStep pop a b) acc l).2.2 ≤ a.length ∧
        (List.foldl (bestBlockStep pop a b) acc l).2.1
          + (List.foldl (bestBlockStep pop a b) acc l).2.2 ≤ b.length := by
  intro l
  induction l with
  | nil => intro acc h1 h2; exact ⟨h1, h2⟩
  | cons p t ih =>
    intro acc h1 h2
    simp only [List.foldl_cons]
    by_cases h : acc.2.2 < startRunLen pop (a.drop p.1) (b.drop p.2)
    · have hk1 : startRunLen pop (a.drop p.1) (b.drop p.2) ≤ a.length - p.1 := by
        have := startRunLen_le_left pop (a.drop p.1) (b.drop p.2)
        simpa using this
      have hk2 : startRunLen pop (a.drop p.1) (b.drop p.2) ≤ b.length - p.2 := by
        have := startRunLen_le_right pop (a.drop p.1) (b.drop p.2)
        simpa using this
      have hstep : bestBlockStep pop a b acc p
          = (p.1, p.2, startRunLen pop (a.drop p.1) (b.drop p.2)) := by
        simp [bestBlockStep, h]
      rw [hstep]
      exact ih _ (by simp; omega) (by simp; omega)
    · have hstep : bestBlockStep pop a b acc p = acc := by
        simp [bestBlockStep, h]
      rw [hstep]
      exact ih acc h1 h2

/-- The best block of the main loop is inside both lists. -/
def bestBlock_bound [DecidableEq α] (pop : α → Bool) (a b : List α) :
    (bestBlock pop a b).1 + (bestBlock pop a b).2.2 ≤ a.length ∧
      (bestBlock pop a b).2.1 + (bestBlock pop a b).2.2 ≤ b.length :=
  bestBlock_foldBound pop a b _ (0, 0, 0) (by simp) (by simp)

/-- Extending to the left moves the start and grows the size in lockstep. -/
def extendLeft_sums [DecidableEq α] (a b : List α) :
    ∀ i j k, (extendLeft a b i j k).1 + (extendLeft a b i j k).2.2 = i + k ∧
      (extendLeft a b i j k).2.1 + (extendLeft a b i j k).2.2 = j + k := by
  intro i
  induction i with
  | zero => intro j k; simp [extendLeft]
  | succ i ih =>
    intro j k
    cases j with
    | zero => simp [extendLeft]
    | succ j =>
      simp only [extendLeft]
      cases hx : a.get? i with
      | none => simp
      | some x =>
        cases hy : b.get? j with
        | none => simp
        | some y =>
          dsimp only
          by_cases hxy : x = y
          · rw [if_pos hxy]
            have := ih j (k + 1)
            omega
          · rw [if_neg hxy]
            simp

/-- The fueled right extension stays inside both lists. -/
def extendRightAux_le [DecidableEq α] (a b : List α) (i j : Nat) :
    ∀ (fuel k : Nat), i + k ≤ a.length → j + k ≤ b.length →
      i + extendRightAux a b i j fuel k ≤ a.length ∧
        j + extendRightAux a b i j fuel k ≤ b.length := by
  intro fuel
  induction fuel with
  | zero => intro k h1 h2; exact ⟨h1, h2⟩
  | succ fuel ih =>
    intro k h1 h2
    rw [extendRightAux]
    split
    · next h => exact ih (k + 1) (by omega) (by omega)
    · exact ⟨h1, h2⟩

/-- The right extension stays inside both lists. -/
def extendRight_leAux [DecidableEq α] (a b : List α) :
    ∀ (k i j : Nat), i + k ≤ a.length → j + k ≤ b.length →
      i + extendRight a b i j k ≤ a.length ∧ j + extendRight a b i j k ≤ b.length := by
  intro k i j h1 h2
  exact extendRightAux_le a b i j _ k h1 h2

/-- The block found by find_longest_match is inside both lists. -/
def findLongestMatch_bound [DecidableEq α] (pop : α → Bool) (a b : List α) :
    (findLongestMatch pop a b).1 + (findLongestMatch pop a b).2.2 ≤ a.length ∧
      (findLongestMatch pop a b).2.1 + (findLongestMatch pop a b).2.2 ≤ b.length := by
  have hb := bestBlock_bound pop a b
  have hs := extendLeft_sums a b (bestBlock pop a b).1 (bestBlock pop a b).2.1
    (bestBlock pop a b).2.2
  have h1 : (extendLeft a b (bestBlock pop a b).1 (bestBlock pop a b).2.1
      (bestBlock pop a b).2.2).1
      + (extendLeft a b (bestBlock pop a b).1 (bestBlock pop a b).2.1
        (bestBlock pop a b).2.2).2.2 ≤ a.length := by omega
  have h2 : (extendLeft a b (bestBlock pop a b).1 (bestBlock pop a b).2.1
      (bestBlock pop a b).2.2).2.1
      + (extendLeft a b (bestBlock pop a b).1 (bestBlock pop a b).2.1
        (bestBlock pop a b).2.2).2.2 ≤ b.length := by omega
  have := extendRight_leAux a b _ _ _ h1 h2
  simpa [findLongestMatch] using this

/-- Embedding of the sum of the matching block sizes of get_matching_blocks,
fueled: the longest match splits both lists and the two remainders are
processed recursively.  Both remainders of a are strictly shorter than a when
the block is nonempty, so the recursion depth is bounded by the length of a
and the fuel below never runs out. -/
def matchesTotalAux [DecidableEq α] (pop : α → Bool) :
    Nat → List α → List α → Nat
  | 0, _, _ => 0
  | fuel + 1, a, b =>
    if (findLongestMatch pop a b).2.2 = 0 then 0
    else
      matchesTotalAux pop fuel (a.take (findLongestMatch pop a b).1)
          (b.take (findLongestMatch pop a b).2.1)
        + (findLongestMatch pop a b).2.2
        + matchesTotalAux pop fuel
            (a.drop ((findLongestMatch pop a b).1 + (findLongestMatch pop a b).2.2))
            (b.drop ((findLongestMatch pop a b).2.1 + (findLongestMatch pop a b).2.2))

/-- The sum of the matching block sizes of get_matching_blocks. -/
def matchesTotal [DecidableEq α] (pop : α → Bool) (a b : List α) : Nat :=
  matchesTotalAux pop (a.length + 1) a b

/-- Embedding of SequenceMatcher ratio on whole lists: twice the number of
matched elements over the total length, and 1 when both are empty.  The
popular elements of b are junked per autojunk. -/
def seqRatio [DecidableEq α] (a b : List α) : ℚ :=
  if a.length + b.length = 0 then 1
  else 2 * (matchesTotal (autoPopular b) a b : ℚ) / ((a.length : ℚ) + (b.length : ℚ))

/-- The similarity threshold of the engine (line 37 of the source): a line
pair at or above sixty percent similarity counts as a match. -/
def similarity_threshold : ℚ := 6 / 10

/-- Embedding of calculate_line_similarity (lines 165 to 174): 1.0 when both
lines are empty, 0.0 when exactly one is, otherwise the SequenceMatcher
ratio of the two lines. -/
def calcLineSimilarity (line1 line2 : Str) : ℚ :=
  if line1 = [] ∧ line2 = [] then 1
  else if line1 = [] ∨ line2 = [] then 0
  else seqRatio line1 line2

/-- Embedding of calculate_character_accuracy (lines 199 to 207). -/
def calcCharacterAccuracy (source dest : Str) : ℚ :=
  if source = [] ∧ dest = [] then 100
  else if source = [] ∨ dest = [] then 0
  else seqRatio source dest * 100

/-- Embedding of calculate_word_accuracy (lines 209 to 220): the same ratio
over the whitespace separated word sequences of the two texts. -/
def calcWordAccuracy (source dest : Str) : ℚ :=
  if pyWords source = [] ∧ pyWords dest = [] then 100
  else if pyWords source = [] ∨ pyWords dest = [] then 0
  else seqRatio (pyWords source) (pyWords dest) * 100

/-- The four classification tags of a line match (the source uses the string
literals exact, similar, missing and extra). -/
inductive MatchType where
  | exact
  | similar
  | missing
  | extra
deriving DecidableEq, Repr

/-- Embedding of the TextMatch dataclass (lines 10 to 18). -/
structure TextMatch where
  source_text : Str
  dest_text : Str
  match_score : ℚ
  match_type : MatchType
  line_number : Nat
  issues : List String
deriving DecidableEq, Repr

/-- Embedding of the TextValidationResult dataclass (lines 20 to 31). -/
structure TextValidationResult where
  overall_similarity : ℚ
  total_lines : Nat
  matched_lines : Nat
  missing_lines : Nat
  extra_lines : Nat
  text_matches : List TextMatch
  recommendations : List String
  character_accuracy : ℚ
  word_accuracy : ℚ
deriving DecidableEq, Repr

/-- Embedding of identify_line_issues (lines 176 to 197): a length difference
note when the lengths differ by more than ten, then notes listing up to three
words on one side only.  The Python code iterates sets, whose order is
implementation defined; here first occurrence order is used. -/
def identifyLineIssues (source_line dest_line : Str) : List String :=
  let source_words := (pyWords source_line).dedup
  let dest_words := (pyWords dest_line).dedup
  let missing_words := source_words.filter (fun w => w ∉ dest_words)
  let extra_words := dest_words.filter (fun w => w ∉ source_words)
  let issues : List String :=
    if 10 < (source_line.length : Int) - (dest_line.length : Int) ∨
        10 < (dest_line.length : Int) - (source_line.length : Int) then
      [("Length difference: source has " ++ toString source_line.length
        ++ " chars, destination has " ++ toString dest_line.length ++ " chars")]
    else []
  let issues := if missing_words ≠ [] then
      issues ++ [("Missing words: "
        ++ String.intercalate (", ") ((missing_words.take 3).map String.mk))]
    else issues
  if extra_words ≠ [] then
    issues ++ [("Extra words: "
      ++ String.intercalate (", ") ((extra_words.take 3).map String.mk))]
  else issues

/-- One iteration of the inner loop of match_lines (lines 115 to 124): a
destination line that is not yet used and whose similarity is strictly above
the best so far and at least the threshold becomes the new best. -/
def bestDestStep (source_line : Str) (used : List Nat) (best : Int × ℚ)
    (p : Nat × Str) : Int × ℚ :=
  if p.1 ∈ used then best
  else
    if best.2 < calcLineSimilarity source_line p.2 ∧
        similarity_threshold ≤ calcLineSimilarity source_line p.2 then
      ((p.1 : Int), calcLineSimilarity source_line p.2)
    else best

/-- The inner loop of match_lines over all destination lines, starting from
best index -1 and best score 0. -/
def bestDest (source_line : Str) (dest_lines : List Str) (used : List Nat) : Int × ℚ :=
  dest_lines.enum.foldl (bestDestStep source_line used) (-1, 0)

/-- One iteration of the outer loop of match_lines (lines 111 to 149): the
source line is matched (exact at ninety five percent, similar otherwise, dest
index marked used) or emitted as missing. -/
def matchLinesStep (dest_lines : List Str) (acc : List TextMatch × List Nat)
    (p : Nat × Str) : List TextMatch × List Nat :=
  if 0 ≤ (bestDest p.2 dest_lines acc.2).1 then
    (acc.1 ++ [{ source_text := p.2,
                 dest_text := dest_lines.getD (bestDest p.2 dest_lines acc.2).1.toNat [],
                 match_score := (bestDest p.2 dest_lines acc.2).2 * 100,
                 match_type := if (95 : ℚ) / 100 ≤ (bestDest p.2 dest_lines acc.2).2 then
                     MatchType.exact
                   else MatchType.similar,
                 line_number := p.1 + 1,
                 issues := identifyLineIssues p.2
                   (dest_lines.getD (bestDest p.2 dest_lines acc.2).1.toNat []) }],
     acc.2 ++ [(bestDest p.2 dest_lines acc.2).1.toNat])
  else
    (acc.1 ++ [{ source_text := p.2, dest_text := [], match_score := 0,
                 match_type := MatchType.missing, line_number := p.1 + 1,
                 issues := ["Line missing in destination"] }],
     acc.2)

/-- The first pass of match_lines: the matches of the source lines in order,
together with the set of used destination indices. -/
def matchFirstPass (source_lines dest_lines : List Str) :
    List TextMatch × List Nat :=
  source_lines.enum.foldl (matchLinesStep dest_lines) ([], [])

/-- The extra entry of the second pass of match_lines (lines 152 to 161). -/
def extraEntry (source_count : Nat) (line : Str) : TextMatch :=
  { source_text := [], dest_text := line, match_score := 0,
    match_type := MatchType.extra, line_number := source_count + 1,
    issues := ["Extra line not in source"] }

/-- Embedding of match_lines (lines 105 to 163): first pass over the source
lines, then every unused destination line becomes an extra entry. -/
def matchLines (source_lines dest_lines : List Str) : List TextMatch :=
  (matchFirstPass source_lines dest_lines).1 ++
    ((dest_lines.enum.filter
        (fun p => p.1 ∉ (matchFirstPass source_lines dest_lines).2)).map
      (fun p => extraEntry source_lines.length p.2))

/-- Embedding of generate_recommendations (lines 222 to 248): one headline
from the overall similarity thresholds, then conditional notes for missing,
extra and similar counts, in that order. -/
def generateRecommendations (matchList : List TextMatch)
    (overall_similarity : ℚ) : List String :=
  let missing_count :=
    (matchList.filter (fun m => m.match_type = MatchType.missing)).length
  let extra_count :=
    (matchList.filter (fun m => m.match_type = MatchType.extra)).length
  let similar_count :=
    (matchList.filter (fun m => m.match_type = MatchType.similar)).length
  let recommendations : List String :=
    if 95 ≤ overall_similarity then
      ["Excellent! Data transfer appears to be nearly perfect."]
    else if 80 ≤ overall_similarity then
      ["Good data transfer with minor differences."]
    else if 60 ≤ overall_similarity then
      ["Moderate accuracy - please review the highlighted differences."]
    else
      ["Low accuracy detected - significant differences found."]
  let recommendations := if 0 < missing_count then
      recommendations ++ [("Review " ++ toString missing_count
        ++ " missing line(s) that weren\x27t transferred.")]
    else recommendations
  let recommendations := if 0 < extra_count then
      recommendations ++ [("Check " ++ toString extra_count
        ++ " extra line(s) that weren\x27t in the original.")]
    else recommendations
  if 0 < similar_count then
    recommendations ++ [("Verify " ++ toString similar_count
      ++ " line(s) with minor differences for accuracy.")]
  else recommendations

/-- Embedding of compare_texts (lines 39 to 87): normalize both texts, split
into non blank lines, match the lines, and assemble the metrics. -/
def compareTexts (source_text dest_text : Str) : TextValidationResult :=
  let source_clean := normalizeText source_text
  let dest_clean := normalizeText dest_text
  let source_lines := extractLines source_clean
  let dest_lines := extractLines dest_clean
  let text_matches := matchLines source_lines dest_lines
  let overall_similarity : ℚ :=
    if source_lines.length = 0 ∧ dest_lines.length = 0 then 100
    else if source_lines.length = 0 ∨ dest_lines.length = 0 then 0
    else seqRatio source_clean dest_clean * 100
  { overall_similarity := overall_similarity,
    total_lines := max source_lines.length dest_lines.length,
    matched_lines :=
      (text_matches.filter
        (fun tm => similarity_threshold ≤ tm.match_score)).length,
    missing_lines :=
      (text_matches.filter (fun tm => tm.match_type = MatchType.missing)).length,
    extra_lines :=
      (text_matches.filter (fun tm => tm.match_type = MatchType.extra)).length,
    text_matches := text_matches,
    recommendations := generateRecommendations text_matches overall_similarity,
    character_accuracy := calcCharacterAccuracy source_clean dest_clean,
    word_accuracy := calcWordAccuracy source_clean dest_clean }

/-!
Supporting facts about the normalizer.
-/

/-- The head element surviving dropWhile falsifies the predicate. -/
def dropWhile_head_false {α : Type} (p : α → Bool) :
    ∀ (l : List α) (a : α) (t : List α), List.dropWhile p l = a :: t → p a = false := by
  intro l
  induction l with
  | nil => intro a t h; simp [List.dropWhile] at h
  | cons c cs ih =>
    intro a t h
    by_cases hc : p c
    · rw [List.dropWhile_cons_of_pos hc] at h
      exact ih a t h
    · rw [List.dropWhile_cons_of_neg hc] at h
      cases h
      exact Bool.of_not_eq_true hc

/-- Every character of a collapsed text is a space or a non whitespace
character. -/
def mem_collapseWs :
    ∀ (s : Str), ∀ c ∈ collapseWs s, c = ' ' ∨ pyIsSpace c = false := by
  intro s
  induction s with
  | nil => simp [collapseWs]
  | cons d ds ih =>
    intro c hc
    cases ds with
    | nil =>
      by_cases hd : pyIsSpace d
      · rw [collapseWs, if_pos hd] at hc
        simp at hc
        exact Or.inl hc
      · rw [collapseWs, if_neg hd] at hc
        simp at hc
        exact Or.inr (hc ▸ Bool.of_not_eq_true hd)
    | cons e es =>
      by_cases hd : pyIsSpace d
      · by_cases he : pyIsSpace e
        · rw [collapseWs, if_pos hd, if_pos he] at hc
          exact ih c hc
        · rw [collapseWs, if_pos hd, if_neg he] at hc
          rcases List.mem_cons.mp hc with h | h
          · exact Or.inl h
          · exact ih c h
      · rw [collapseWs, if_neg hd] at hc
        rcases List.mem_cons.mp hc with h | h
        · exact Or.inr (h ▸ Bool.of_not_eq_true hd)
        · exact ih c h

/-- Stripping only removes characters. -/
def mem_strip (s : Str) (c : Char) (hc : c ∈ strip s) : c ∈ s := by
  have h1 : c ∈ s.dropWhile pyIsSpace := by
    have hpre := List.rdropWhile_prefix pyIsSpace (s.dropWhile pyIsSpace)
    exact List.Sublist.mem hc (List.IsPrefix.sublist hpre)
  exact List.Sublist.mem h1 (List.IsSuffix.sublist (List.dropWhile_suffix pyIsSpace))

/-- A normalized text has no newline character. -/
def normalizeText_no_newline (t : Str) : '\n' ∉ normalizeText t := by
  intro h
  rw [normalizeText] at h
  split at h
  · simp at h
  · have h1 := mem_strip _ _ h
    have h2 := List.mem_of_mem_filter h1
    rcases mem_collapseWs _ _ h2 with h3 | h3
    · exact absurd h3 (by decide)
    · exact absurd h3 (by decide)

/-- Splitting a newline free text is trivial. -/
def splitOnNl_no_nl : ∀ (s : Str), '\n' ∉ s → splitOnNl s = [s] := by
  intro s
  induction s with
  | nil => intro _; rfl
  | cons c cs ih =>
    intro h
    have hc : ¬c = '\n' := fun hc => h (hc ▸ List.mem_cons_self c cs)
    have hcs : '\n' ∉ cs := fun hm => h (List.mem_cons_of_mem c hm)
    rw [splitOnNl, ih hcs]
    simp [hc]

/-- Stripping is idempotent. -/
def strip_strip (s : Str) : strip (strip s) = strip s := by
  have hA : List.dropWhile pyIsSpace (strip s) = strip s := by
    cases hu : strip s with
    | nil => simp
    | cons a u =>
      have hpre : strip s <+: s.dropWhile pyIsSpace :=
        List.rdropWhile_prefix pyIsSpace (s.dropWhile pyIsSpace)
      obtain ⟨t, ht⟩ := hpre
      rw [hu] at ht
      have ha : pyIsSpace a = false := by
        exact dropWhile_head_false pyIsSpace s a (u ++ t) ht.symm
      rw [List.dropWhile_cons_of_neg (by simp [ha])]
  rw [strip, hA, strip]
  exact List.rdropWhile_idempotent pyIsSpace (s.dropWhile pyIsSpace)

/-- A normalized text is already stripped. -/
def strip_normalizeText (t : Str) : strip (normalizeText t) = normalizeText t := by
  rw [normalizeText]
  split
  · rfl
  · exact strip_strip _

/-- Line extraction after normalization: the empty text gives no lines, any
other normalized text is a single line. -/
def extractLines_normalizeText (t : Str) :
    extractLines (normalizeText t) =
      if normalizeText t = [] then [] else [normalizeText t] := by
  by_cases h : normalizeText t = []
  · rw [if_pos h, h]
    rfl
  · rw [if_neg h, extractLines, splitOnNl_no_nl _ (normalizeText_no_newline t)]
    simp [strip_normalizeText, h]

/-- A normalized text yields at most one line. -/
def extractLines_len_le_one (t : Str) :
    (extractLines (normalizeText t)).length ≤ 1 := by
  rw [extractLines_normalizeText]
  split <;> simp

/-- A normalized text yields no lines exactly when it is empty. -/
def extractLines_eq_nil_iff (t : Str) :
    extractLines (normalizeText t) = [] ↔ normalizeText t = [] := by
  rw [extractLines_normalizeText]
  constructor
  · intro h
    by_contra hne
    rw [if_neg hne] at h
    exact (List.cons_ne_nil _ _) h
  · intro h
    rw [if_pos h]

/-!
Supporting facts about the greedy destination selection loop.
-/

/-- Indices of an enumeration start at the offset. -/
def mem_enumFrom_le {α : Type} :
    ∀ (n : Nat) (l : List α) (q : Nat × α), q ∈ List.enumFrom n l → n ≤ q.1 := by
  intro n l
  induction l generalizing n with
  | nil => intro q hq; simp [List.enumFrom] at hq
  | cons a t ih =>
    intro q hq
    rcases List.mem_cons.mp hq with h | h
    · subst h; exact Nat.le_refl _
    · exact Nat.le_of_succ_le (ih (n + 1) q h)

/-- The indices of an enumeration are strictly increasing. -/
def pairwise_fst_lt_enumFrom {α : Type} :
    ∀ (n : Nat) (l : List α),
      List.Pairwise (fun p q : Nat × α => p.1 < q.1) (List.enumFrom n l) := by
  intro n l
  induction l generalizing n with
  | nil => simp [List.enumFrom]
  | cons a t ih =>
    refine List.Pairwise.cons ?_ (ih (n + 1))
    intro q hq
    exact Nat.lt_of_succ_le (mem_enumFrom_le (n + 1) t q hq)

/-- The indices of the enumeration of a list are strictly increasing. -/
def pairwise_fst_lt_enum {α : Type} (l : List α) :
    List.Pairwise (fun p q : Nat × α => p.1 < q.1) l.enum :=
  pairwise_fst_lt_enumFrom 0 l

/-- Full characterization of the result of the inner selection loop relative
to the elements already scanned. -/
def BestDestOut (source_line : Str) (used : List Nat) (l : List (Nat × Str))
    (acc r : Int × ℚ) : Prop :=
  acc.2 ≤ r.2 ∧
  (r = acc ∨ ∃ p ∈ l, p.1 ∉ used ∧
      r = ((p.1 : Int), calcLineSimilarity source_line p.2) ∧
      similarity_threshold ≤ calcLineSimilarity source_line p.2 ∧
      acc.2 < calcLineSimilarity source_line p.2) ∧
  (∀ p ∈ l, p.1 ∉ used →
    similarity_threshold ≤ calcLineSimilarity source_line p.2 →
    calcLineSimilarity source_line p.2 ≤ r.2) ∧
  (∀ p ∈ l, p.1 ∉ used → (p.1 : Int) < r.1 →
    calcLineSimilarity source_line p.2 < r.2)

/-- The selection loop returns the first strictly best candidate at or above
the threshold among the unused destination lines. -/
def bestDest_fold (source_line : Str) (used : List Nat) :
    ∀ (l : List (Nat × Str)) (acc : Int × ℚ),
      List.Pairwise (fun p q : Nat × Str => p.1 < q.1) l →
      (∀ p ∈ l, acc.1 < (p.1 : Int)) →
      BestDestOut source_line used l acc
        (List.foldl (bestDestStep source_line used) acc l) := by
  intro l
  induction l with
  | nil =>
    intro acc _ _
    exact ⟨le_refl _, Or.inl rfl, by simp, by simp⟩
  | cons p t ih =>
    intro acc hpw hacc
    have hpwt : List.Pairwise (fun p q : Nat × Str => p.1 < q.1) t :=
      (List.pairwise_cons.mp hpw).2
    have hhead : ∀ q ∈ t, p.1 < q.1 := (List.pairwise_cons.mp hpw).1
    rw [List.foldl_cons]
    by_cases hu : p.1 ∈ used
    · have hstep : bestDestStep source_line used acc p = acc := by
        simp [bestDestStep, hu]
      rw [hstep]
      obtain ⟨h1, h2, h3, h4⟩ := ih acc hpwt
        (fun q hq => hacc q (List.mem_cons_of_mem p hq))
      refine ⟨h1, ?_, ?_, ?_⟩
      · rcases h2 with h | ⟨q, hq, hqrest⟩
        · exact Or.inl h
        · exact Or.inr ⟨q, List.mem_cons_of_mem p hq, hqrest⟩
      · intro q hq hqu hqθ
        rcases List.mem_cons.mp hq with h | h
        · exact absurd (h ▸ hu) hqu
        · exact h3 q h hqu hqθ
      · intro q hq hqu hqlt
        rcases List.mem_cons.mp hq with h | h
        · exact absurd (h ▸ hu) hqu
        · exact h4 q h hqu hqlt
    · by_cases hcond : acc.2 < calcLineSimilarity source_line p.2 ∧
          similarity_threshold ≤ calcLineSimilarity source_line p.2
      · have hstep : bestDestStep source_line used acc p
            = ((p.1 : Int), calcLineSimilarity source_line p.2) := by
          simp [bestDestStep, hu, hcond]
        rw [hstep]
        obtain ⟨h1, h2, h3, h4⟩ := ih ((p.1 : Int), calcLineSimilarity source_line p.2)
          hpwt (fun q hq => by
            show (p.1 : Int) < (q.1 : Int)
            exact_mod_cast hhead q hq)
        refine ⟨le_trans (le_of_lt hcond.1) h1, ?_, ?_, ?_⟩
        · rcases h2 with h | ⟨q, hq, hq1, hq2, hq3, hq4⟩
          · exact Or.inr ⟨p, List.mem_cons_self p t, hu, h, hcond.2, hcond.1⟩
          · exact Or.inr ⟨q, List.mem_cons_of_mem p hq, hq1, hq2, hq3,
              lt_of_lt_of_le hcond.1 (le_of_lt hq4)⟩
        · intro q hq hqu hqθ
          rcases List.mem_cons.mp hq with h | h
          · exact h ▸ h1
          · exact h3 q h hqu hqθ
        · intro q hq hqu hqlt
          rcases List.mem_cons.mp hq with h | h
          · subst h
            rcases h2 with hr | ⟨w, hw, hw1, hw2, hw3, hw4⟩
            · rw [hr] at hqlt
              exact absurd hqlt (by simp)
            · rw [hw2]
              exact hw4
          · exact h4 q h hqu hqlt
      · have hstep : bestDestStep source_line used acc p = acc := by
          rw [bestDestStep, if_neg (by simpa using hu), if_neg hcond]
        rw [hstep]
        obtain ⟨h1, h2, h3, h4⟩ := ih acc hpwt
          (fun q hq => hacc q (List.mem_cons_of_mem p hq))
        refine ⟨h1, ?_, ?_, ?_⟩
        · rcases h2 with h | ⟨q, hq, hqrest⟩
          · exact Or.inl h
          · exact Or.inr ⟨q, List.mem_cons_of_mem p hq, hqrest⟩
        · intro q hq hqu hqθ
          rcases List.mem_cons.mp hq with h | h
          · subst h
            have : ¬acc.2 < calcLineSimilarity source_line q.2 := fun hlt =>
              hcond ⟨hlt, hqθ⟩
            exact le_trans (not_lt.mp this) h1
          · exact h3 q h hqu hqθ
        · intro q hq hqu hqlt
          rcases List.mem_cons.mp hq with h | h
          · subst h
            rcases h2 with hr | ⟨w, hw, hw1, hw2, hw3, hw4⟩
            · rw [hr] at hqlt
              exact absurd hqlt (not_lt.mpr (le_of_lt (hacc q (List.mem_cons_self q t))))
            · rw [hw2]
              by_cases hqθ : similarity_threshold ≤ calcLineSimilarity source_line q.2
              · have : ¬acc.2 < calcLineSimilarity source_line q.2 := fun hlt =>
                  hcond ⟨hlt, hqθ⟩
                exact lt_of_le_of_lt (not_lt.mp this) hw4
              · exact lt_of_lt_of_le (not_le.mp hqθ) hw3
          · exact h4 q h hqu hqlt

/-- The threshold is positive. -/
def similarity_threshold_pos : (0 : ℚ) < similarity_threshold := by
  rw [similarity_threshold]
  norm_num

/-- Enumeration membership from an index below the length. -/
def enum_mem_of_lt (l : List Str) (j : Nat) (h : j < l.length) :
    (j, l.getD j []) ∈ l.enum := by
  rw [List.mem_enum_iff_get?]
  have h1 : l.get? j = some l[j] := by
    rw [List.get?_eq_getElem?]
    exact List.getElem?_eq_getElem h
  have h2 : l.getD j [] = l[j] := by
    rw [List.getD_eq_getElem?_getD]
    rw [List.getElem?_eq_getElem h]
    rfl
  rw [h2]
  exact h1

/-- Enumeration members are exactly the indexed elements. -/
def enum_mem_elim (l : List Str) (p : Nat × Str) (hp : p ∈ l.enum) :
    p.1 < l.length ∧ p.2 = l.getD p.1 [] := by
  have h1 := List.mem_enum_iff_get?.mp hp
  have h2 : p.1 < l.length := by
    by_contra hge
    rw [List.get?_eq_getElem?, List.getElem?_eq_none (by omega)] at h1
    exact Option.noConfusion h1
  refine ⟨h2, ?_⟩
  rw [List.get?_eq_getElem?, List.getElem?_eq_getElem h2] at h1
  have h3 : l.getD p.1 [] = l[p.1] := by
    rw [List.getD_eq_getElem?_getD, List.getElem?_eq_getElem h2]
    rfl
  rw [h3]
  exact (Option.some.injEq _ _).mp h1.symm

/-- The characterization of bestDest, instantiated from the fold lemma. -/
def bestDest_out (source_line : Str) (dest_lines : List Str) (used : List Nat) :
    BestDestOut source_line used dest_lines.enum (-1, 0)
      (bestDest source_line dest_lines used) := by
  refine bestDest_fold source_line used dest_lines.enum (-1, 0)
    (pairwise_fst_lt_enum dest_lines) ?_
  intro p _
  have : (0 : Int) ≤ (p.1 : Int) := Int.natCast_nonneg _
  omega

/-- The selection loop reports no index exactly when every unused destination
line is below the similarity threshold. -/
def bestDest_neg_one_iff (source_line : Str) (dest_lines : List Str)
    (used : List Nat) :
    (bestDest source_line dest_lines used).1 = -1 ↔
      ∀ j, j < dest_lines.length → j ∉ used →
        calcLineSimilarity source_line (dest_lines.getD j []) < similarity_threshold := by
  obtain ⟨h1, h2, h3, h4⟩ := bestDest_out source_line dest_lines used
  constructor
  · intro hneg j hj hju
    have hmem := enum_mem_of_lt dest_lines j hj
    by_contra hge
    have hθ : similarity_threshold ≤
        calcLineSimilarity source_line (dest_lines.getD j []) := not_lt.mp hge
    have hle := h3 (j, dest_lines.getD j []) hmem hju hθ
    rcases h2 with hr | ⟨p, _, _, hp2, _, _⟩
    · rw [hr] at hle
      have : similarity_threshold ≤ (0 : ℚ) := le_trans hθ hle
      exact absurd this (not_le.mpr similarity_threshold_pos)
    · rw [hp2] at hneg
      have : (0 : Int) ≤ (p.1 : Int) := Int.natCast_nonneg _
      omega
  · intro hall
    rcases h2 with hr | ⟨p, hp, hp1, hp2, hp3, _⟩
    · rw [hr]
    · obtain ⟨hlt, hgd⟩ := enum_mem_elim dest_lines p hp
      have := hall p.1 hlt hp1
      rw [← hgd] at this
      exact absurd hp3 (not_le.mpr this)

/-- When the selection loop reports an index, that index is fresh and in
range, its score is the similarity of the selected line, the score is at or
above threshold and maximal among unused lines, and every unused line with a
smaller index is strictly below it. -/
def bestDest_some (source_line : Str) (dest_lines : List Str) (used : List Nat)
    (j : Nat) (hj : (bestDest source_line dest_lines used).1 = (j : Int)) :
    j < dest_lines.length ∧ j ∉ used ∧
      (bestDest source_line dest_lines used).2
        = calcLineSimilarity source_line (dest_lines.getD j []) ∧
      similarity_threshold ≤ (bestDest source_line dest_lines used).2 ∧
      (∀ i, i < dest_lines.length → i ∉ used →
        calcLineSimilarity source_line (dest_lines.getD i [])
          ≤ (bestDest source_line dest_lines used).2) ∧
      (∀ i, i < dest_lines.length → i ∉ used → i < j →
        calcLineSimilarity source_line (dest_lines.getD i [])
          < (bestDest source_line dest_lines used).2) := by
  obtain ⟨h1, h2, h3, h4⟩ := bestDest_out source_line dest_lines used
  rcases h2 with hr | ⟨p, hp, hp1, hp2, hp3, _⟩
  · rw [hr] at hj
    exact absurd hj.symm (by
      have : (0 : Int) ≤ (j : Int) := Int.natCast_nonneg _
      omega)
  · obtain ⟨hlt, hgd⟩ := enum_mem_elim dest_lines p hp
    have hpj : p.1 = j := by
      rw [hp2] at hj
      simp only [Prod.fst] at hj
      exact_mod_cast hj
    have hscore : (bestDest source_line dest_lines used).2
        = calcLineSimilarity source_line (dest_lines.getD j []) := by
      rw [hp2, ← hpj, ← hgd]
    refine ⟨hpj ▸ hlt, hpj ▸ hp1, hscore, ?_, ?_, ?_⟩
    · rw [hscore, ← hpj, ← hgd]
      exact hp3
    · intro i hi hiu
      by_cases hθ : similarity_threshold ≤
          calcLineSimilarity source_line (dest_lines.getD i [])
      · exact h3 (i, dest_lines.getD i []) (enum_mem_of_lt dest_lines i hi) hiu hθ
      · refine le_trans (le_of_lt (not_le.mp hθ)) ?_
        rw [hscore, ← hpj, ← hgd]
        exact hp3
    · intro i hi hiu hij
      refine h4 (i, dest_lines.getD i []) (enum_mem_of_lt dest_lines i hi) hiu ?_
      have hgoal : ((i : Int)) < ((p.1 : Int)) := by exact_mod_cast (hpj ▸ hij)
      simpa [hp2] using hgoal

/-- A nonnegative reported index is the cast of its toNat. -/
def bestDest_nonneg_cast (source_line : Str) (dest_lines : List Str)
    (used : List Nat) (h : 0 ≤ (bestDest source_line dest_lines used).1) :
    (bestDest source_line dest_lines used).1
      = ((bestDest source_line dest_lines used).1.toNat : Int) :=
  (Int.toNat_of_nonneg h).symm

/-!
Supporting facts about the outer matching loop.
-/

/-- Shape of every entry appended during the first pass of match_lines: a
missing entry scores zero, an exact entry scores at least ninety five, a
similar entry scores at least sixty and below ninety five. -/
def FirstPassInv (tm : TextMatch) : Prop :=
  (tm.match_type = MatchType.missing ∧ tm.match_score = 0) ∨
  (tm.match_type = MatchType.exact ∧ 95 ≤ tm.match_score) ∨
  (tm.match_type = MatchType.similar ∧
    60 ≤ tm.match_score ∧ tm.match_score < 95)

/-- Each step of the first pass appends exactly one entry satisfying the
shape invariant (never an extra entry), and either keeps the used list or
appends one fresh index to it. -/
def matchLinesStep_shape (dl : List Str) (acc : List TextMatch × List Nat)
    (p : Nat × Str) :
    ∃ tm : TextMatch, FirstPassInv tm ∧
      (matchLinesStep dl acc p).1 = acc.1 ++ [tm] ∧
      ((matchLinesStep dl acc p).2 = acc.2 ∨
        ∃ j : Nat, j ∉ acc.2 ∧ (matchLinesStep dl acc p).2 = acc.2 ++ [j]) := by
  by_cases h0 : 0 ≤ (bestDest p.2 dl acc.2).1
  · have hcast := bestDest_nonneg_cast p.2 dl acc.2 h0
    obtain ⟨hjlt, hju, hsc, hθ, _, _⟩ :=
      bestDest_some p.2 dl acc.2 (bestDest p.2 dl acc.2).1.toNat hcast
    refine ⟨{ source_text := p.2,
              dest_text := dl.getD (bestDest p.2 dl acc.2).1.toNat [],
              match_score := (bestDest p.2 dl acc.2).2 * 100,
              match_type := if (95 : ℚ) / 100 ≤ (bestDest p.2 dl acc.2).2 then
                  MatchType.exact
                else MatchType.similar,
              line_number := p.1 + 1,
              issues := identifyLineIssues p.2
                (dl.getD (bestDest p.2 dl acc.2).1.toNat []) }, ?_, ?_, ?_⟩
    · by_cases hex : (95 : ℚ) / 100 ≤ (bestDest p.2 dl acc.2).2
      · refine Or.inr (Or.inl ⟨by simp [hex], ?_⟩)
        show (95 : ℚ) ≤ (bestDest p.2 dl acc.2).2 * 100
        linarith
      · refine Or.inr (Or.inr ⟨by simp [hex], ?_, ?_⟩)
        · show (60 : ℚ) ≤ (bestDest p.2 dl acc.2).2 * 100
          have h6 : (6 : ℚ) / 10 ≤ (bestDest p.2 dl acc.2).2 := by
            rw [similarity_threshold] at hθ
            exact hθ
          linarith
        · show (bestDest p.2 dl acc.2).2 * 100 < 95
          have h9 : (bestDest p.2 dl acc.2).2 < 95 / 100 := not_le.mp hex
          linarith
    · rw [matchLinesStep, if_pos h0]
    · refine Or.inr ⟨(bestDest p.2 dl acc.2).1.toNat, hju, ?_⟩
      rw [matchLinesStep, if_pos h0]
  · refine ⟨{ source_text := p.2, dest_text := [], match_score := 0,
              match_type := MatchType.missing, line_number := p.1 + 1,
              issues := ["Line missing in destination"] }, ?_, ?_, Or.inl ?_⟩
    · exact Or.inl ⟨rfl, rfl⟩
    · rw [matchLinesStep, if_neg h0]
    · rw [matchLinesStep, if_neg h0]

/-- Invariants of the first pass fold: every produced entry satisfies the
shape invariant, the used index list stays duplicate free, and exactly one
entry is appended per source line. -/
def matchFirstPass_fold (dl : List Str) :
    ∀ (l : List (Nat × Str)) (acc : List TextMatch × List Nat),
      (∀ tm ∈ acc.1, FirstPassInv tm) → acc.2.Nodup →
      (∀ tm ∈ (List.foldl (matchLinesStep dl) acc l).1, FirstPassInv tm) ∧
        (List.foldl (matchLinesStep dl) acc l).2.Nodup ∧
        (List.foldl (matchLinesStep dl) acc l).1.length
          = acc.1.length + l.length := by
  intro l
  induction l with
  | nil =>
    intro acc h1 h2
    exact ⟨h1, h2, by simp⟩
  | cons p t ih =>
    intro acc h1 h2
    rw [List.foldl_cons]
    obtain ⟨tm, htm, hfst, hsnd⟩ := matchLinesStep_shape dl acc p
    have hents : ∀ x ∈ (matchLinesStep dl acc p).1, FirstPassInv x := by
      intro x hx
      rw [hfst] at hx
      rcases List.mem_append.mp hx with h | h
      · exact h1 x h
      · rw [List.mem_singleton.mp h]
        exact htm
    have hnd : (matchLinesStep dl acc p).2.Nodup := by
      rcases hsnd with h | ⟨j, hj, h⟩
      · rw [h]; exact h2
      · rw [h]
        refine List.Nodup.append h2 (List.nodup_singleton _) ?_
        intro x hx hx2
        rw [List.mem_singleton.mp hx2] at hx
        exact hj hx
    obtain ⟨r1, r2, r3⟩ := ih (matchLinesStep dl acc p) hents hnd
    refine ⟨r1, r2, ?_⟩
    have hlen : (matchLinesStep dl acc p).1.length = acc.1.length + 1 := by
      rw [hfst]
      simp
    rw [r3, hlen]
    simp only [List.length_cons]
    omega

/-- Every first pass entry satisfies the shape invariant. -/
def matchFirstPass_entry (sl dl : List Str) :
    ∀ tm ∈ (matchFirstPass sl dl).1, FirstPassInv tm :=
  (matchFirstPass_fold dl sl.enum ([], []) (by simp) List.nodup_nil).1

/-- The used destination indices of the first pass are duplicate free: a
destination line is consumed at most once. -/
def matchFirstPass_nodup (sl dl : List Str) : (matchFirstPass sl dl).2.Nodup :=
  (matchFirstPass_fold dl sl.enum ([], []) (by simp) List.nodup_nil).2.1

/-- The first pass emits exactly one entry per source line. -/
def matchFirstPass_length (sl dl : List Str) :
    (matchFirstPass sl dl).1.length = sl.length := by
  have h := (matchFirstPass_fold dl sl.enum ([], []) (by simp) List.nodup_nil).2.2
  simpa using h

/-- Shape of every entry of the match list. -/
def matchLines_entry (sl dl : List Str) :
    ∀ tm ∈ matchLines sl dl,
      (tm.match_type = MatchType.missing ∧ tm.match_score = 0) ∨
      (tm.match_type = MatchType.extra ∧ tm.match_score = 0) ∨
      (tm.match_type = MatchType.exact ∧ 95 ≤ tm.match_score) ∨
      (tm.match_type = MatchType.similar ∧
        60 ≤ tm.match_score ∧ tm.match_score < 95) := by
  intro tm htm
  rw [matchLines] at htm
  rcases List.mem_append.mp htm with h | h
  · rcases matchFirstPass_entry sl dl tm h with h1 | h1 | h1
    · exact Or.inl h1
    · exact Or.inr (Or.inr (Or.inl h1))
    · exact Or.inr (Or.inr (Or.inr h1))
  · obtain ⟨p, _, hp⟩ := List.mem_map.mp h
    subst hp
    exact Or.inr (Or.inl ⟨rfl, rfl⟩)

/-- Every first pass entry is not an extra entry. -/
def matchFirstPass_not_extra (sl dl : List Str) :
    ∀ tm ∈ (matchFirstPass sl dl).1, tm.match_type ≠ MatchType.extra := by
  intro tm htm
  rcases matchFirstPass_entry sl dl tm htm with h | h | h <;>
    simp [h.1]

/-!
Supporting facts for the diagonal behaviour of the sequence matcher: on two
equal lists find_longest_match always returns the full diagonal block.
-/

/-- Scan order of the main loop: lexicographic order on index pairs. -/
def pairLt (p q : Nat × Nat) : Prop :=
  p.1 < q.1 ∨ (p.1 = q.1 ∧ p.2 < q.2)

/-- The scan order is irreflexive. -/
def pairLt_irrefl (p : Nat × Nat) : ¬pairLt p p := by
  intro h
  rcases h with h | ⟨_, h⟩ <;> omega

/-- The scan order is asymmetric. -/
def pairLt_asymm {p q : Nat × Nat} (h : pairLt p q) : ¬pairLt q p := by
  intro h2
  rcases h with h | ⟨h, h1⟩ <;> rcases h2 with h2 | ⟨h2, h3⟩ <;> omega

/-- Membership in the pair list. -/
def mem_allPairs (m n : Nat) (p : Nat × Nat) :
    p ∈ allPairs m n ↔ p.1 < m ∧ p.2 < n := by
  rw [allPairs]
  constructor
  · intro h
    obtain ⟨i, hi, hp⟩ := List.mem_flatMap.mp h
    obtain ⟨j, hj, hpj⟩ := List.mem_map.mp hp
    rw [← hpj]
    exact ⟨List.mem_range.mp hi, List.mem_range.mp hj⟩
  · intro ⟨h1, h2⟩
    refine List.mem_flatMap.mpr ⟨p.1, List.mem_range.mpr h1, ?_⟩
    exact List.mem_map.mpr ⟨p.2, List.mem_range.mpr h2, rfl⟩

/-- The pair list is sorted in scan order. -/
def allPairs_pairwise : ∀ (m n : Nat), List.Pairwise pairLt (allPairs m n) := by
  intro m n
  induction m with
  | zero => simp [allPairs]
  | succ m ih =>
    have hsplit : allPairs (m + 1) n
        = allPairs m n ++ (List.range n).map (fun j => (m, j)) := by
      rw [allPairs, allPairs, List.range_succ, List.flatMap_append]
      simp
    rw [hsplit]
    rw [List.pairwise_append]
    refine ⟨ih, ?_, ?_⟩
    · rw [List.pairwise_map]
      refine List.Pairwise.imp ?_ (List.pairwise_lt_range n)
      intro a b hab
      exact Or.inr ⟨rfl, hab⟩
    · intro a ha b hb
      obtain ⟨j, _, hbj⟩ := List.mem_map.mp hb
      have ha1 := (mem_allPairs m n a).mp ha
      refine Or.inl ?_
      rw [← hbj]
      exact ha1.1

/-- Full characterization of the main loop fold relative to the scanned
pairs: the result value only grows, the result is the start or a scanned
candidate that strictly improved on it, no scanned candidate beats the
result, and every scanned candidate before the winning position is strictly
below the result value. -/
def bestBlock_fold [DecidableEq α] (pop : α → Bool) (a b : List α) :
    ∀ (l : List (Nat × Nat)) (acc : Nat × Nat × Nat),
      List.Pairwise pairLt l →
      (∀ p ∈ l, acc = (0, 0, 0) ∨ pairLt (acc.1, acc.2.1) p) →
      acc.2.2 ≤ (List.foldl (bestBlockStep pop a b) acc l).2.2 ∧
        (List.foldl (bestBlockStep pop a b) acc l = acc ∨
          ∃ p ∈ l, List.foldl (bestBlockStep pop a b) acc l
              = (p.1, p.2, startRunLen pop (a.drop p.1) (b.drop p.2)) ∧
            acc.2.2 < startRunLen pop (a.drop p.1) (b.drop p.2)) ∧
        (∀ p ∈ l, startRunLen pop (a.drop p.1) (b.drop p.2)
          ≤ (List.foldl (bestBlockStep pop a b) acc l).2.2) ∧
        (∀ p ∈ l,
          pairLt p ((List.foldl (bestBlockStep pop a b) acc l).1,
            (List.foldl (bestBlockStep pop a b) acc l).2.1) →
          startRunLen pop (a.drop p.1) (b.drop p.2)
            < (List.foldl (bestBlockStep pop a b) acc l).2.2) := by
  intro l
  induction l with
  | nil =>
    intro acc _ _
    exact ⟨le_refl _, Or.inl rfl, by simp, by simp⟩
  | cons p t ih =>
    intro acc hpw hacc
    have hpwt := (List.pairwise_cons.mp hpw).2
    have hhead := (List.pairwise_cons.mp hpw).1
    rw [List.foldl_cons]
    by_cases h : acc.2.2 < startRunLen pop (a.drop p.1) (b.drop p.2)
    · have hstep : bestBlockStep pop a b acc p
          = (p.1, p.2, startRunLen pop (a.drop p.1) (b.drop p.2)) := by
        simp [bestBlockStep, h]
      rw [hstep]
      obtain ⟨h1, h2, h3, h4⟩ :=
        ih (p.1, p.2, startRunLen pop (a.drop p.1) (b.drop p.2)) hpwt
          (fun q hq => Or.inr (hhead q hq))
      refine ⟨le_trans (le_of_lt h) h1, ?_, ?_, ?_⟩
      · rcases h2 with hr | ⟨q, hq, hq1, hq2⟩
        · exact Or.inr ⟨p, List.mem_cons_self p t, hr, h⟩
        · exact Or.inr ⟨q, List.mem_cons_of_mem p hq, hq1, lt_trans h hq2⟩
      · intro q hq
        rcases List.mem_cons.mp hq with hq1 | hq1
        · rw [hq1]
          exact h1
        · exact h3 q hq1
      · intro q hq hqlt
        rcases List.mem_cons.mp hq with hq1 | hq1
        · subst hq1
          rcases h2 with hr | ⟨w, hw, hw1, hw2⟩
          · rw [hr] at hqlt
            exact absurd hqlt (pairLt_irrefl q)
          · rw [hw1]
            exact hw2
        · exact h4 q hq1 hqlt
    · have hstep : bestBlockStep pop a b acc p = acc := by
        simp [bestBlockStep, h]
      rw [hstep]
      obtain ⟨h1, h2, h3, h4⟩ := ih acc hpwt
        (fun q hq => hacc q (List.mem_cons_of_mem p hq))
      refine ⟨h1, ?_, ?_, ?_⟩
      · rcases h2 with hr | ⟨q, hq, hqrest⟩
        · exact Or.inl hr
        · exact Or.inr ⟨q, List.mem_cons_of_mem p hq, hqrest⟩
      · intro q hq
        rcases List.mem_cons.mp hq with hq1 | hq1
        · rw [hq1]
          exact le_trans (not_lt.mp h) h1
        · exact h3 q hq1
      · intro q hq hqlt
        rcases List.mem_cons.mp hq with hq1 | hq1
        · subst hq1
          rcases h2 with hr | ⟨w, hw, hw1, hw2⟩
          · rw [hr] at hqlt
            rcases hacc q (List.mem_cons_self q t) with h0 | h0
            · rw [h0] at hqlt
              rcases hqlt with hx | ⟨_, hx⟩ <;> simp at hx
            · exact absurd h0 (pairLt_asymm hqlt)
          · rw [hw1]
            exact lt_of_le_of_lt (not_lt.mp h) hw2
        · exact h4 q hq1 hqlt

/-- A matching run between two lists never beats the corresponding diagonal
run of the b side against itself. -/
def startRunLen_diag_right [DecidableEq α] (pop : α → Bool) :
    ∀ (a b : List α), startRunLen pop a b ≤ startRunLen pop b b := by
  intro a
  induction a with
  | nil => intro b; simp [startRunLen]
  | cons x xs ih =>
    intro b
    cases b with
    | nil => simp [startRunLen]
    | cons y ys =>
      by_cases h : x = y ∧ pop y = false
      · rw [startRunLen, if_pos h, startRunLen, if_pos ⟨rfl, h.2⟩]
        exact Nat.succ_le_succ (ih ys)
      · rw [startRunLen, if_neg h]
        exact Nat.zero_le _

/-- A matching run between two lists never beats the corresponding diagonal
run of the a side against itself. -/
def startRunLen_diag_left [DecidableEq α] (pop : α → Bool) :
    ∀ (a b : List α), startRunLen pop a b ≤ startRunLen pop a a := by
  intro a
  induction a with
  | nil => intro b; simp [startRunLen]
  | cons x xs ih =>
    intro b
    cases b with
    | nil => simp [startRunLen]
    | cons y ys =>
      by_cases h : x = y ∧ pop y = false
      · rw [startRunLen, if_pos h, startRunLen,
          if_pos ⟨rfl, by rw [h.1]; exact h.2⟩]
        exact Nat.succ_le_succ (ih ys)
      · rw [startRunLen, if_neg h]
        exact Nat.zero_le _

/-- On two equal lists the winning block of the main loop is diagonal. -/
def bestBlock_diag [DecidableEq α] (pop : α → Bool) (c : List α) :
    (bestBlock pop c c).1 = (bestBlock pop c c).2.1 := by
  obtain ⟨h1, h2, h3, h4⟩ := bestBlock_fold pop c c
    (allPairs c.length c.length) (0, 0, 0)
    (allPairs_pairwise c.length c.length) (fun p _ => Or.inl rfl)
  rcases h2 with hr | ⟨p, hp, hp1, _⟩
  · rw [bestBlock, hr]
  · have hmem := (mem_allPairs c.length c.length p).mp hp
    rw [bestBlock, hp1]
    by_contra hne
    rcases Nat.lt_or_ge p.1 p.2 with hlt | hge
    · have hq : (p.1, p.1) ∈ allPairs c.length c.length :=
        (mem_allPairs c.length c.length (p.1, p.1)).mpr ⟨hmem.1, hmem.1⟩
      have hql : pairLt (p.1, p.1) (p.1, p.2) := Or.inr ⟨rfl, hlt⟩
      have h4q := h4 (p.1, p.1) hq (by rw [hp1]; exact hql)
      rw [hp1] at h4q
      have hd := startRunLen_diag_left pop (c.drop p.1) (c.drop p.2)
      simp only at h4q
      omega
    · have hlt : p.2 < p.1 := by
        rcases Nat.lt_or_ge p.2 p.1 with h0 | h0
        · exact h0
        · exact absurd (Nat.le_antisymm h0 hge) (by simpa using hne)
      have hq : (p.2, p.2) ∈ allPairs c.length c.length :=
        (mem_allPairs c.length c.length (p.2, p.2)).mpr ⟨hmem.2, hmem.2⟩
      have hql : pairLt (p.2, p.2) (p.1, p.2) := Or.inl hlt
      have h4q := h4 (p.2, p.2) hq (by rw [hp1]; exact hql)
      rw [hp1] at h4q
      have hd := startRunLen_diag_right pop (c.drop p.1) (c.drop p.2)
      simp only at h4q
      omega

/-- Extending a diagonal block to the left reaches the start. -/
def extendLeft_diag [DecidableEq α] (c : List α) :
    ∀ (i k : Nat), i + k ≤ c.length → extendLeft c c i i k = (0, 0, i + k) := by
  intro i
  induction i with
  | zero => intro k h; simp [extendLeft]
  | succ i ih =>
    intro k h
    have hi : i < c.length := by omega
    have hg : c.get? i = some (c.get ⟨i, hi⟩) := List.get?_eq_get hi
    rw [extendLeft]
    rw [hg]
    simp only [if_pos rfl]
    rw [ih (k + 1) (by omega), show i + (k + 1) = i + 1 + k by omega]
    simp

/-- Extending a block anchored at the start of the diagonal to the right
reaches the end. -/
def extendRightAux_diag [DecidableEq α] (c : List α) :
    ∀ (fuel k : Nat), fuel = c.length - k → k ≤ c.length →
      extendRightAux c c 0 0 fuel k = c.length := by
  intro fuel
  induction fuel with
  | zero =>
    intro k h1 h2
    rw [extendRightAux]
    omega
  | succ fuel ih =>
    intro k h1 h2
    have hk : k < c.length := by omega
    rw [extendRightAux, if_pos ⟨by omega, by omega, rfl⟩]
    exact ih (k + 1) (by omega) (by omega)

/-- On two equal lists find_longest_match returns the whole list as a single
block. -/
def findLongestMatch_self [DecidableEq α] (pop : α → Bool) (c : List α) :
    findLongestMatch pop c c = (0, 0, c.length) := by
  have hdiag := bestBlock_diag pop c
  have hb := bestBlock_bound pop c c
  have hL : extendLeft c c (bestBlock pop c c).1 (bestBlock pop c c).2.1
      (bestBlock pop c c).2.2
      = (0, 0, (bestBlock pop c c).1 + (bestBlock pop c c).2.2) := by
    rw [← hdiag]
    exact extendLeft_diag c (bestBlock pop c c).1 (bestBlock pop c c).2.2
      (by omega)
  rw [findLongestMatch]
  rw [hL]
  simp only [Prod.mk.injEq]
  rw [extendRight]
  rw [extendRightAux_diag c _ _ (by omega) (by omega)]
  simp

/-- The matching total of the empty pair is zero. -/
def matchesTotalAux_nil [DecidableEq α] (pop : α → Bool) :
    ∀ fuel : Nat, matchesTotalAux pop fuel ([] : List α) [] = 0 := by
  intro fuel
  cases fuel with
  | zero => rfl
  | succ fuel =>
    rw [matchesTotalAux,
      if_pos (show (findLongestMatch pop ([] : List α) ([] : List α)).2.2 = 0
        from rfl)]

/-- A list matched against itself matches completely. -/
def matchesTotal_self [DecidableEq α] (pop : α → Bool) (c : List α) :
    matchesTotal pop c c = c.length := by
  rw [matchesTotal, matchesTotalAux, findLongestMatch_self pop c]
  by_cases hc : c.length = 0
  · rw [if_pos hc]
    omega
  · rw [if_neg hc]
    simp only [List.take_zero, Nat.zero_add]
    rw [List.drop_length]
    rw [matchesTotalAux_nil]
    omega

/-- The ratio of a nonempty list against itself is one. -/
def seqRatio_self (c : Str) (hc : c ≠ []) : seqRatio c c = 1 := by
  rw [seqRatio]
  have hlen : c.length ≠ 0 := fun h => hc (List.eq_nil_of_length_eq_zero h)
  rw [if_neg (by omega)]
  rw [matchesTotal_self]
  have : ((c.length : ℚ)) ≠ 0 := by exact_mod_cast hlen
  field_simp
  ring

/-!
Assembly facts at the compare_texts level.
-/

/-- The matched lines field unfolded. -/
def compareTexts_matched (s d : Str) :
    (compareTexts s d).matched_lines
      = ((matchLines (extractLines (normalizeText s))
            (extractLines (normalizeText d))).filter
          (fun tm => similarity_threshold ≤ tm.match_score)).length := rfl

/-- The match list field unfolded. -/
def compareTexts_matches (s d : Str) :
    (compareTexts s d).text_matches
      = matchLines (extractLines (normalizeText s))
          (extractLines (normalizeText d)) := rfl

/-- The total lines field unfolded. -/
def compareTexts_total (s d : Str) :
    (compareTexts s d).total_lines
      = max (extractLines (normalizeText s)).length
          (extractLines (normalizeText d)).length := rfl

/-- The overall similarity field unfolded. -/
def compareTexts_overall (s d : Str) :
    (compareTexts s d).overall_similarity
      = (if (extractLines (normalizeText s)).length = 0 ∧
            (extractLines (normalizeText d)).length = 0 then (100 : ℚ)
        else if (extractLines (normalizeText s)).length = 0 ∨
            (extractLines (normalizeText d)).length = 0 then 0
        else seqRatio (normalizeText s) (normalizeText d) * 100) := rfl

/-- The character accuracy field unfolded. -/
def compareTexts_char (s d : Str) :
    (compareTexts s d).character_accuracy
      = calcCharacterAccuracy (normalizeText s) (normalizeText d) := rfl

/-- The match list of the empty line lists is empty. -/
def matchLines_nil : matchLines [] [] = [] := rfl

/-- A singleton line pair at or above the threshold yields one matched entry,
exact from ninety five percent up, similar below. -/
def matchLines_singleton_hit (a b : Str)
    (h : similarity_threshold ≤ calcLineSimilarity a b) :
    matchLines [a] [b]
      = [{ source_text := a, dest_text := b,
           match_score := calcLineSimilarity a b * 100,
           match_type := if (95 : ℚ) / 100 ≤ calcLineSimilarity a b then
               MatchType.exact
             else MatchType.similar,
           line_number := 1,
           issues := identifyLineIssues a b }] := by
  have hbd : bestDest a [b] [] = ((0 : Int), calcLineSimilarity a b) := by
    show bestDestStep a [] (-1, 0) (0, b) = _
    rw [bestDestStep]
    rw [if_neg (by simp)]
    exact if_pos ⟨lt_of_lt_of_le similarity_threshold_pos h, h⟩
  have hfp : matchFirstPass [a] [b]
      = ([{ source_text := a, dest_text := b,
            match_score := calcLineSimilarity a b * 100,
            match_type := if (95 : ℚ) / 100 ≤ calcLineSimilarity a b then
                MatchType.exact
              else MatchType.similar,
            line_number := 1,
            issues := identifyLineIssues a b }], [0]) := by
    show matchLinesStep [b] ([], []) (0, a) = _
    rw [matchLinesStep, hbd]
    simp [List.getD]
  rw [matchLines, hfp]
  simp

/-- A singleton line pair below the threshold yields a missing entry followed
by an extra entry. -/
def matchLines_singleton_miss (a b : Str)
    (h : calcLineSimilarity a b < similarity_threshold) :
    matchLines [a] [b]
      = [{ source_text := a, dest_text := [], match_score := 0,
           match_type := MatchType.missing, line_number := 1,
           issues := ["Line missing in destination"] },
         { source_text := [], dest_text := b, match_score := 0,
           match_type := MatchType.extra, line_number := 2,
           issues := ["Extra line not in source"] }] := by
  have hbd : bestDest a [b] [] = (-1, 0) := by
    show bestDestStep a [] (-1, 0) (0, b) = _
    rw [bestDestStep]
    rw [if_neg (by simp)]
    exact if_neg (fun hc => absurd hc.2 (not_le.mpr h))
  have hfp : matchFirstPass [a] [b]
      = ([{ source_text := a, dest_text := [], match_score := 0,
            match_type := MatchType.missing, line_number := 1,
            issues := ["Line missing in destination"] }], []) := by
    show matchLinesStep [b] ([], []) (0, a) = _
    rw [matchLinesStep, hbd]
    simp
  rw [matchLines, hfp]
  simp [extraEntry]

/-- A nonempty line compared with itself has similarity one. -/
def calcLineSimilarity_self (c : Str) (hc : c ≠ []) :
    calcLineSimilarity c c = 1 := by
  rw [calcLineSimilarity, if_neg (by simp [hc]), if_neg (by simp [hc])]
  exact seqRatio_self c hc

/-!
The claim theorems.
-/

/-- C3: for every pair of input strings, normalization replaces each run of
whitespace (newlines included) before the split on newlines, so a normalized
text has no newline and yields at most one non blank line; consequently every
compare call returns at most one total line, a match list of length at most
two, and at most one entry that is not an extra entry. -/
theorem c3_single_line_collapse :
    (∀ t : Str, '\n' ∉ normalizeText t ∧
      (extractLines (normalizeText t)).length ≤ 1) ∧
    ∀ s d : Str,
      (compareTexts s d).total_lines ≤ 1 ∧
      (compareTexts s d).text_matches.length ≤ 2 ∧
      ((compareTexts s d).text_matches.filter
        (fun tm => tm.match_type ≠ MatchType.extra)).length ≤ 1 := by
  constructor
  · exact fun t => ⟨normalizeText_no_newline t, extractLines_len_le_one t⟩
  · intro s d
    have hsl := extractLines_len_le_one s
    have hdl := extractLines_len_le_one d
    refine ⟨?_, ?_, ?_⟩
    · rw [compareTexts_total]
      exact Nat.max_le.mpr ⟨hsl, hdl⟩
    · rw [compareTexts_matches, matchLines, List.length_append,
        List.length_map]
      have h1 := matchFirstPass_length (extractLines (normalizeText s))
        (extractLines (normalizeText d))
      have h2 : (((extractLines (normalizeText d)).enum.filter
          (fun p => p.1 ∉ (matchFirstPass (extractLines (normalizeText s))
            (extractLines (normalizeText d))).2))).length
          ≤ (extractLines (normalizeText d)).length :=
        le_trans (List.length_filter_le _ _) (le_of_eq List.enum_length)
      omega
    · rw [compareTexts_matches, matchLines, List.filter_append,
        List.length_append]
      have h1 : (((extractLines (normalizeText d)).enum.filter
          (fun p => p.1 ∉ (matchFirstPass (extractLines (normalizeText s))
            (extractLines (normalizeText d))).2)).map
          (fun p => extraEntry (extractLines (normalizeText s)).length p.2)).filter
          (fun tm => tm.match_type ≠ MatchType.extra) = [] := by
        rw [List.filter_eq_nil_iff]
        intro tm htm
        obtain ⟨p, _, hp⟩ := List.mem_map.mp htm
        rw [← hp]
        simp [extraEntry]
      rw [h1]
      have h2 := List.length_filter_le
        (fun tm => tm.match_type ≠ MatchType.extra)
        (matchFirstPass (extractLines (normalizeText s))
          (extractLines (normalizeText d))).1
      have h3 := matchFirstPass_length (extractLines (normalizeText s))
        (extractLines (normalizeText d))
      have h4 := extractLines_len_le_one s
      simp only [List.length_nil]
      omega

/-- C3 witness. -/
theorem c3_single_line_collapse_witness :
    (compareTexts ("a\nb".toList) ("c".toList)).total_lines ≤ 1 :=
  ((c3_single_line_collapse.2 ("a\nb".toList) ("c".toList)).1)

/-- C4: the matched lines count equals the number of match entries scoring at
least sixty on the percent scale, and missing or extra entries never qualify
because their score is zero. -/
theorem c4_matched_lines_count :
    ∀ s d : Str,
      (compareTexts s d).matched_lines
        = ((compareTexts s d).text_matches.filter
            (fun tm => (60 : ℚ) ≤ tm.match_score)).length ∧
      ∀ tm ∈ (compareTexts s d).text_matches,
        (tm.match_type = MatchType.missing ∨ tm.match_type = MatchType.extra) →
        tm.match_score = 0 := by
  intro s d
  rw [compareTexts_matched, compareTexts_matches]
  constructor
  · apply congrArg List.length
    apply List.filter_congr
    intro tm htm
    rcases matchLines_entry (extractLines (normalizeText s))
        (extractLines (normalizeText d)) tm htm with
      ⟨_, h0⟩ | ⟨_, h0⟩ | ⟨_, h95⟩ | ⟨_, h60, _⟩
    · have h1 : ¬similarity_threshold ≤ tm.match_score := by
        rw [h0, similarity_threshold]
        norm_num
      have h2 : ¬(60 : ℚ) ≤ tm.match_score := by
        rw [h0]
        norm_num
      simp [h1, h2]
    · have h1 : ¬similarity_threshold ≤ tm.match_score := by
        rw [h0, similarity_threshold]
        norm_num
      have h2 : ¬(60 : ℚ) ≤ tm.match_score := by
        rw [h0]
        norm_num
      simp [h1, h2]
    · have h1 : similarity_threshold ≤ tm.match_score := by
        rw [similarity_threshold]
        linarith
      have h2 : (60 : ℚ) ≤ tm.match_score := by linarith
      simp [h1, h2]
    · have h1 : similarity_threshold ≤ tm.match_score := by
        rw [similarity_threshold]
        linarith
      have h2 : (60 : ℚ) ≤ tm.match_score := by linarith
      simp [h1, h2]
  · intro tm htm hty
    rcases matchLines_entry (extractLines (normalizeText s))
        (extractLines (normalizeText d)) tm htm with
      ⟨_, h0⟩ | ⟨_, h0⟩ | ⟨ht, _⟩ | ⟨ht, _, _⟩
    · exact h0
    · exact h0
    · rcases hty with h | h <;> rw [ht] at h <;> exact absurd h (by simp)
    · rcases hty with h | h <;> rw [ht] at h <;> exact absurd h (by simp)

/-- C4 witness. -/
theorem c4_matched_lines_count_witness :
    (compareTexts ("a".toList) ("a".toList)).matched_lines
      = ((compareTexts ("a".toList) ("a".toList)).text_matches.filter
          (fun tm => (60 : ℚ) ≤ tm.match_score)).length :=
  (c4_matched_lines_count ("a".toList) ("a".toList)).1

/-- C5: the overall similarity and the character accuracy of every compare
result are numerically equal. -/
theorem c5_overall_eq_character_accuracy :
    ∀ s d : Str,
      (compareTexts s d).overall_similarity
        = (compareTexts s d).character_accuracy := by
  intro s d
  rw [compareTexts_overall, compareTexts_char, calcCharacterAccuracy]
  rw [extractLines_normalizeText s, extractLines_normalizeText d]
  by_cases hs : normalizeText s = [] <;> by_cases hd : normalizeText d = []
  · rw [if_pos hs, if_pos hd]
    simp [hs, hd]
  · rw [if_pos hs, if_neg hd]
    rw [if_neg (by simp [hd]), if_pos (by simp)]
    rw [if_neg (by simp [hd]), if_pos (by simp [hs])]
  · rw [if_neg hs, if_pos hd]
    rw [if_neg (by simp [hs]), if_pos (by simp)]
    rw [if_neg (by simp [hs]), if_pos (by simp [hd])]
  · rw [if_neg hs, if_neg hd]
    rw [if_neg (by simp), if_neg (by simp)]
    rw [if_neg (by simp [hs, hd]), if_neg (by simp [hs, hd])]

/-- C5 witness. -/
theorem c5_overall_eq_character_accuracy_witness :
    (compareTexts ("ab".toList) ("cd".toList)).overall_similarity
      = (compareTexts ("ab".toList) ("cd".toList)).character_accuracy :=
  c5_overall_eq_character_accuracy ("ab".toList) ("cd".toList)

/-- C7: comparing two empty texts gives one hundred percent similarity, and
whenever exactly one input normalizes to empty the similarity is zero. -/
theorem c7_emptiness :
    (compareTexts [] []).overall_similarity = 100 ∧
    (compareTexts ("x".toList) []).overall_similarity = 0 ∧
    (compareTexts [] ("x".toList)).overall_similarity = 0 ∧
    (∀ s d : Str, normalizeText s = [] → normalizeText d ≠ [] →
      (compareTexts s d).overall_similarity = 0) ∧
    (∀ s d : Str, normalizeText s ≠ [] → normalizeText d = [] →
      (compareTexts s d).overall_similarity = 0) := by
  refine ⟨rfl, rfl, rfl, ?_, ?_⟩
  · intro s d hs hd
    rw [compareTexts_overall, extractLines_normalizeText s,
      extractLines_normalizeText d, if_pos hs, if_neg hd]
    rw [if_neg (by simp [hd]), if_pos (by simp)]
  · intro s d hs hd
    rw [compareTexts_overall, extractLines_normalizeText s,
      extractLines_normalizeText d, if_neg hs, if_pos hd]
    rw [if_neg (by simp [hs]), if_pos (by simp)]

/-- C7 witness: a text of pure punctuation normalizes to empty against a non
empty text. -/
theorem c7_emptiness_witness :
    (compareTexts (",".toList) ("y".toList)).overall_similarity = 0 :=
  c7_emptiness.2.2.2.1 (",".toList) ("y".toList) (by decide) (by decide)

/-- C8: comparing any non empty text with itself yields one hundred percent
overall similarity and every match entry is classified exact. -/
theorem c8_identity :
    ∀ t : Str, t ≠ [] →
      (compareTexts t t).overall_similarity = 100 ∧
      ∀ tm ∈ (compareTexts t t).text_matches,
        tm.match_type = MatchType.exact := by
  intro t _
  by_cases hc : normalizeText t = []
  · constructor
    · rw [compareTexts_overall, extractLines_normalizeText t, if_pos hc]
      simp
    · rw [compareTexts_matches, extractLines_normalizeText t, if_pos hc]
      intro tm htm
      rw [matchLines_nil] at htm
      simp at htm
  · have hsim : calcLineSimilarity (normalizeText t) (normalizeText t) = 1 :=
      calcLineSimilarity_self _ hc
    constructor
    · rw [compareTexts_overall, extractLines_normalizeText t, if_neg hc]
      rw [if_neg (by simp), if_neg (by simp)]
      rw [seqRatio_self _ hc]
      norm_num
    · rw [compareTexts_matches, extractLines_normalizeText t, if_neg hc]
      rw [matchLines_singleton_hit _ _ (by
        rw [hsim, similarity_threshold]
        norm_num)]
      intro tm htm
      rw [List.mem_singleton.mp htm]
      have h95 : (95 : ℚ) / 100
          ≤ calcLineSimilarity (normalizeText t) (normalizeText t) := by
        rw [hsim]
        norm_num
      simp [h95]

/-- C8 witness. -/
theorem c8_identity_witness :
    (compareTexts ("abc".toList) ("abc".toList)).overall_similarity = 100 :=
  (c8_identity ("abc".toList) (by decide)).1

/-- C1: the code collapses newlines during normalization before the split on
newlines, contrary to the specified newline preserving normalization: the
three line input A B C normalizes to a single line with no newline left, and
the split yields one piece instead of three. -/
theorem c1_normalization_drops_newlines :
    normalizeText ("A\nB\nC".toList) = "a b c".toList ∧
    (splitOnNl (normalizeText ("A\nB\nC".toList))).length = 1 ∧
    '\n' ∉ normalizeText ("A\nB\nC".toList) := by
  refine ⟨by decide, by decide, by decide⟩

/-- C2: on source A B C and destination A C the code does not produce the
specified one missing entry with two matched lines; because normalization
collapsed the newlines, it pairs the single line a b c with the single line
a c as one similar entry, with one matched line and no missing line. -/
theorem c2_missing_line_scenario :
    (compareTexts ("A\nB\nC".toList) ("A\nC".toList)).matched_lines = 1 ∧
    (compareTexts ("A\nB\nC".toList) ("A\nC".toList)).missing_lines = 0 ∧
    (compareTexts ("A\nB\nC".toList) ("A\nC".toList)).extra_lines = 0 ∧
    ((compareTexts ("A\nB\nC".toList) ("A\nC".toList)).text_matches.map
        (fun tm => tm.match_type)) = [MatchType.similar] ∧
    (compareTexts ("A\nB\nC".toList) ("A\nC".toList)).total_lines = 1 := by
  refine ⟨?_, ?_, ?_, ?_, ?_⟩
  · with_unfolding_all decide
  · with_unfolding_all decide
  · with_unfolding_all decide
  · with_unfolding_all decide
  · with_unfolding_all decide

/-- C6: every exact entry scores at least ninety five, every similar entry
scores in the band from sixty up to but excluding ninety five, every missing
or extra entry scores zero; a singleton pair with similarity at least 0.95
(so in particular exactly 0.95) is classified exact, one below 0.95 but at
least the 0.60 threshold is classified similar, and one below the threshold
is never emitted as a single match but as separate missing and extra
entries. -/
theorem c6_classification :
    (∀ sl dl : List Str, ∀ tm ∈ matchLines sl dl,
      (tm.match_type = MatchType.exact → 95 ≤ tm.match_score) ∧
      (tm.match_type = MatchType.similar →
        60 ≤ tm.match_score ∧ tm.match_score < 95) ∧
      ((tm.match_type = MatchType.missing ∨ tm.match_type = MatchType.extra) →
        tm.match_score = 0)) ∧
    (∀ a b : Str, (95 : ℚ) / 100 ≤ calcLineSimilarity a b →
      (matchLines [a] [b]).map (fun tm => tm.match_type) = [MatchType.exact]) ∧
    (∀ a b : Str, similarity_threshold ≤ calcLineSimilarity a b →
      calcLineSimilarity a b < (95 : ℚ) / 100 →
      (matchLines [a] [b]).map (fun tm => tm.match_type)
        = [MatchType.similar]) ∧
    (∀ a b : Str, calcLineSimilarity a b < similarity_threshold →
      (matchLines [a] [b]).map (fun tm => tm.match_type)
        = [MatchType.missing, MatchType.extra]) := by
  refine ⟨?_, ?_, ?_, ?_⟩
  · intro sl dl tm htm
    rcases matchLines_entry sl dl tm htm with
      ⟨ht, hs⟩ | ⟨ht, hs⟩ | ⟨ht, hs⟩ | ⟨ht, hs, hs2⟩ <;>
      simp [ht, hs] <;> try exact hs2
  · intro a b h
    have hθ : similarity_threshold ≤ calcLineSimilarity a b :=
      le_trans (by rw [similarity_threshold]; norm_num) h
    rw [matchLines_singleton_hit a b hθ]
    simp [h]
  · intro a b h1 h2
    have hn : ¬(95 : ℚ) / 100 ≤ calcLineSimilarity a b := not_le.mpr h2
    rw [matchLines_singleton_hit a b h1]
    simp [hn]
  · intro a b h
    rw [matchLines_singleton_miss a b h]
    simp

/-- C6 witness: an identical pair is exact, a near pair is similar, a
disjoint pair becomes missing plus extra. -/
theorem c6_classification_witness :
    (matchLines [("ab".toList)] [("ab".toList)]).map (fun tm => tm.match_type)
        = [MatchType.exact] ∧
      (matchLines [("abc".toList)] [("abd".toList)]).map
          (fun tm => tm.match_type) = [MatchType.similar] ∧
      (matchLines [("ab".toList)] [("cd".toList)]).map
          (fun tm => tm.match_type) = [MatchType.missing, MatchType.extra] :=
  ⟨c6_classification.2.1 ("ab".toList) ("ab".toList)
      (by with_unfolding_all decide),
   c6_classification.2.2.1 ("abc".toList) ("abd".toList)
      (by with_unfolding_all decide) (by with_unfolding_all decide),
   c6_classification.2.2.2 ("ab".toList) ("cd".toList)
      (by with_unfolding_all decide)⟩

/-- C9: the selection loop reports no index exactly when no unused
destination line reaches the threshold; a reported index is in range, fresh,
carries the similarity of its line as score, beats or ties every unused line
and strictly beats every unused line of smaller index; and the used indices
of the first pass never repeat. -/
theorem c9_greedy_selection :
    (∀ (source_line : Str) (dest_lines : List Str) (used : List Nat),
      ((bestDest source_line dest_lines used).1 = -1 ↔
        ∀ j, j < dest_lines.length → j ∉ used →
          calcLineSimilarity source_line (dest_lines.getD j [])
            < similarity_threshold) ∧
      (∀ j : Nat, (bestDest source_line dest_lines used).1 = (j : Int) →
        j < dest_lines.length ∧ j ∉ used ∧
        (bestDest source_line dest_lines used).2
          = calcLineSimilarity source_line (dest_lines.getD j []) ∧
        similarity_threshold ≤ (bestDest source_line dest_lines used).2 ∧
        (∀ i, i < dest_lines.length → i ∉ used →
          calcLineSimilarity source_line (dest_lines.getD i [])
            ≤ (bestDest source_line dest_lines used).2) ∧
        (∀ i, i < dest_lines.length → i ∉ used → i < j →
          calcLineSimilarity source_line (dest_lines.getD i [])
            < (bestDest source_line dest_lines used).2))) ∧
    ∀ sl dl : List Str, (matchFirstPass sl dl).2.Nodup :=
  ⟨fun sourceLine destLines used =>
    ⟨bestDest_neg_one_iff sourceLine destLines used,
     fun j hj => bestDest_some sourceLine destLines used j hj⟩,
   matchFirstPass_nodup⟩

/-- C9 witness. -/
theorem c9_greedy_selection_witness :
    (matchFirstPass [("a".toList)] [("a".toList)]).2.Nodup :=
  c9_greedy_selection.2 [("a".toList)] [("a".toList)]

/-- C10: the recommendation list is exactly one headline chosen by the
ninety five, eighty, sixty thresholds in order, followed in fixed order by a
missing note, an extra note and a similar note, each present exactly when
its count is positive. -/
theorem c10_recommendations :
    ∀ (matchList : List TextMatch) (overall_similarity : ℚ),
      generateRecommendations matchList overall_similarity
        = (if 95 ≤ overall_similarity then
            "Excellent! Data transfer appears to be nearly perfect."
          else if 80 ≤ overall_similarity then
            "Good data transfer with minor differences."
          else if 60 ≤ overall_similarity then
            "Moderate accuracy - please review the highlighted differences."
          else
            "Low accuracy detected - significant differences found.")
          :: ((if 0 < (matchList.filter
                (fun m => m.match_type = MatchType.missing)).length then
              [("Review " ++ toString (matchList.filter
                  (fun m => m.match_type = MatchType.missing)).length
                ++ " missing line(s) that weren\x27t transferred.")]
            else [])
          ++ (if 0 < (matchList.filter
                (fun m => m.match_type = MatchType.extra)).length then
              [("Check " ++ toString (matchList.filter
                  (fun m => m.match_type = MatchType.extra)).length
                ++ " extra line(s) that weren\x27t in the original.")]
            else [])
          ++ (if 0 < (matchList.filter
                (fun m => m.match_type = MatchType.similar)).length then
              [("Verify " ++ toString (matchList.filter
                  (fun m => m.match_type = MatchType.similar)).length
                ++ " line(s) with minor differences for accuracy.")]
            else [])) := by
  intro matchList overall_similarity
  simp only [generateRecommendations]
  split_ifs <;> simp

/-- C10 witness. -/
theorem c10_recommendations_witness :
    generateRecommendations [] 97
      = ["Excellent! Data transfer appears to be nearly perfect."] := by
  have h := c10_recommendations [] 97
  rw [h]
  norm_num

end STC
